import Mathlib

/-!
Verification development for the caxlang repository: a lexer (logos-based),
a recursive-descent parser, a tree-walking interpreter, and a bytecode
chunk disassembler plus a register VM.

Numeric modelling: the Rust code computes with `f64`. We model `f64` values
with the inductive `F64` below: finite values are carried as exact rationals
(round-to-nearest of non-representable finite results is not modelled, as no
claim depends on it), while overflow to the infinities and the special
values are modelled, with the IEEE-754 round-to-nearest overflow threshold
2^1024 - 2^970.
-/

/-- Model of an f64 value: exact finite rational, infinities, or NaN. -/
inductive F64 where
  | finite (val : ℚ)
  | inf
  | negInf
  | nan
deriving DecidableEq, Repr

namespace F64

/-- Smallest magnitude at which IEEE-754 round-to-nearest-even overflows
a binary64 result to an infinity, namely 2 to the 1024 minus 2 to the 970;
computed in the naturals so that it evaluates. -/
def overflowThreshold : ℚ := ((2 ^ 1024 - 2 ^ 970 : ℕ) : ℚ)

/-- Injects an exact rational result into the f64 model, applying the
overflow rule. Rounding of representable-range values is kept exact. -/
def ofRat (v : ℚ) : F64 :=
  if overflowThreshold ≤ v then .inf
  else if v ≤ -overflowThreshold then .negInf
  else .finite v

/-- Model of f64 negation: flips the sign, maps NaN to NaN. -/
def neg : F64 → F64
  | finite v => finite (-v)
  | inf => negInf
  | negInf => inf
  | nan => nan

/-- Model of f64 addition. -/
def add : F64 → F64 → F64
  | nan, _ => nan
  | _, nan => nan
  | inf, negInf => nan
  | negInf, inf => nan
  | inf, _ => inf
  | _, inf => inf
  | negInf, _ => negInf
  | _, negInf => negInf
  | finite a, finite b => ofRat (a + b)

/-- Model of f64 subtraction: a - b is a + (-b) in IEEE-754. -/
def sub (a b : F64) : F64 := add a (neg b)

end F64

/-- Error type of the lexer, from src/caxlang/src/lexer.rs. -/
inductive LexingError where
  | InvalidInteger (msg : String)
  | NonAsciiCharacter
deriving DecidableEq, Repr

/-- Alias for the builtin string type, usable inside inductives that
declare a constructor itself named String. -/
abbrev Str := String

/-- Alias for the builtin Bool, usable where a constructor named Bool is
in scope. -/
abbrev Boolean := Bool

/-- The token type of the lexer, from src/caxlang/src/lexer.rs. Numeric
payloads are f64 values (modelled by `F64`). -/
inductive Token where
  | Number (val : F64)
  | String (s : Str)
  | Ident (s : Str)
  | Plus
  | Minus
  | Mult
  | Div
  | True
  | False
  | Equal
  | Bang
  | NEqual
  | Less
  | Greater
  | GEqual
  | LEqual
  | DEqual
  | LParen
  | RParen
  | Nil
deriving DecidableEq, Repr

/-!
Lexer model, from src/caxlang/src/lexer.rs. The Rust lexer is generated by
logos from per-token regexes with maximal munch and literal-over-class
priority; the definitions below hand-compile that token set. Since the
start sets of the classes (digit, double quote, letter or underscore,
operator characters) are pairwise disjoint, trying the classes in sequence
is equivalent to the single union automaton.
-/

/-- Characters skipped by the lexer, regex [ \t\n]. -/
def isSkipChar (c : Char) : Bool := c == ' ' || c == '\t' || c == '\n'

/-- ASCII decimal digit. -/
def isDigitChar (c : Char) : Bool := '0' ≤ c && c ≤ '9'

/-- Identifier characters, regex [A-Z_a-z]. -/
def isIdentChar (c : Char) : Bool :=
  ('A' ≤ c && c ≤ 'Z') || c == '_' || ('a' ≤ c && c ≤ 'z')

/-- Integer part of the number regex, alternative 0|[1-9][0-9]*: a lone
zero, or a nonzero digit followed by any digits. -/
def intPartMatch : List Char → Option (List Char × List Char)
  | [] => none
  | c :: rest =>
      if c == '0' then some ([c], rest)
      else if isDigitChar c then
        let p := rest.span isDigitChar
        some (c :: p.1, p.2)
      else none

/-- Optional fractional part of the number regex, (\.[0-9]+)?; the dot is
consumed only when at least one digit follows (maximal munch falls back to
the last accepting state otherwise). -/
def fracMatch : List Char → List Char × List Char
  | [] => ([], [])
  | c :: rest =>
      if c == '.' then
        match rest.span isDigitChar with
        | ([], _) => ([], c :: rest)
        | (ds, r) => (c :: ds, r)
      else ([], c :: rest)

/-- Optional exponent part of the number regex, ([eE][+-]?[0-9]+)?; again
consumed only when a digit sequence completes it. -/
def expMatch (cs : List Char) : List Char × List Char :=
  match cs with
  | c :: rest =>
      if c == 'e' || c == 'E' then
        let sp : List Char × List Char :=
          match rest with
          | s :: r2 => if s == '+' || s == '-' then ([s], r2) else ([], rest)
          | [] => ([], rest)
        match sp.2.span isDigitChar with
        | ([], _) => ([], cs)
        | (ds, r) => (c :: (sp.1 ++ ds), r)
      else ([], cs)
  | [] => ([], cs)

/-- Numeric value of a digit list, most significant first. -/
def digitsToNat (ds : List Char) : ℕ :=
  ds.foldl (fun a c => 10 * a + (c.toNat - '0'.toNat)) 0

/-- Value of a matched fractional part. -/
def fracVal : List Char → ℚ
  | '.' :: ds => (digitsToNat ds : ℚ) / ((10 ^ ds.length : ℕ) : ℚ)
  | _ => 0

/-- Value of a matched exponent part. -/
def expVal : List Char → ℤ
  | _ :: '-' :: ds => -(digitsToNat ds : ℤ)
  | _ :: '+' :: ds => (digitsToNat ds : ℤ)
  | _ :: ds => (digitsToNat ds : ℤ)
  | [] => 0

/-- Exact rational value denoted by a matched numeric slice, split into its
integer, fractional and exponent parts; the power of ten is computed in
the naturals so that it evaluates. -/
def sliceVal (ip fp ep : List Char) : ℚ :=
  match expVal ep with
  | .ofNat k => ((digitsToNat ip : ℚ) + fracVal fp) * ((10 ^ k : ℕ) : ℚ)
  | .negSucc k => ((digitsToNat ip : ℚ) + fracVal fp) / ((10 ^ (k + 1) : ℕ) : ℚ)

/-- Number token rule: the regex match together with the callback
lex.slice().parse::[f64]().unwrap(). For every slice the regex accepts, f64
parsing succeeds, saturating to infinity on overflow, so the rule can only
produce a token, never a lexing error. -/
def numberTokenMatch (cs : List Char) : Option (Token × List Char) :=
  match intPartMatch cs with
  | none => none
  | some (ip, r1) =>
      let fpr := fracMatch r1
      let epr := expMatch fpr.2
      some (.Number (F64.ofRat (sliceVal ip fpr.1 epr.1)), epr.2)

/-- Plain string content characters, regex class excluding the double
quote, the backslash and the control range 0x00-0x1F. -/
def isStrPlainChar (c : Char) : Bool :=
  c != '"' && c != '\\' && 0x20 ≤ c.toNat

/-- Single characters legal after a backslash in a string escape. -/
def isEscChar (c : Char) : Bool :=
  c == '"' || c == '\\' || c == '/' || c == 'b' || c == 'n' ||
  c == 'f' || c == 'r' || c == 't'

/-- Hexadecimal digit, for the \uXXXX escape. -/
def isHexChar (c : Char) : Bool :=
  isDigitChar c || ('a' ≤ c && c ≤ 'f') || ('A' ≤ c && c ≤ 'F')

/-- Consumes one escape continuation after a backslash. The ok result
gives the characters of the escape beyond the backslash and the remaining
input; the error result gives the characters the automaton had consumed
beyond the backslash when it got stuck, and the input from the character
it could not consume (inside a unicode escape up to four hexadecimal
digits are consumed one at a time before failing). -/
def escSplit (cs : List Char) :
    Except (List Char × List Char) (List Char × List Char) :=
  match cs with
  | [] => .error ([], [])
  | e :: rest2 =>
      if isEscChar e then .ok ([e], rest2)
      else if e == 'u' then
        let hx := rest2.takeWhile isHexChar
        if 4 ≤ hx.length then .ok (e :: hx.take 4, rest2.drop 4)
        else .error (e :: hx, rest2.drop hx.length)
      else .error ([], e :: rest2)

/-- Outcome of running the string-rule automaton on a literal interior:
closed carries the body and the input after the closing quote; stuck
carries the characters consumed after the opening quote before the
automaton failed, and the input from the character it could not consume.
The string rule accepts only at a closing quote, so a failed attempt has
no earlier accepting state to fall back to: logos emits the error over
the consumed prefix and resumes at the stuck character. -/
inductive StrScanResult where
  | closed (body : List Char) (rest : List Char)
  | stuck (consumed : List Char) (rest : List Char)
deriving DecidableEq, Repr

/-- Scans the interior of a string literal after the opening quote, one
automaton step at a time. The fuel argument only ties the recursion:
every step consumes at least one character, so fuel of one more than the
input length never runs out. -/
def strScan : ℕ → List Char → StrScanResult
  | 0, cs => .stuck [] cs
  | _ + 1, [] => .stuck [] []
  | fuel + 1, c :: rest =>
      if c == '"' then .closed [] rest
      else if c == '\\' then
        match escSplit rest with
        | .error (con, r) => .stuck (c :: con) r
        | .ok (eChars, rest2) =>
            match strScan fuel rest2 with
            | .closed body r => .closed (c :: eChars ++ body) r
            | .stuck con r => .stuck (c :: eChars ++ con) r
      else if isStrPlainChar c then
        match strScan fuel rest with
        | .closed body r => .closed (c :: body) r
        | .stuck con r => .stuck (c :: con) r
      else .stuck [] (c :: rest)

/-- Removal of every double quote character, modelling the string token
callback lex.slice().to_owned().replace on the quote character. -/
def removeQuotes (cs : List Char) : List Char := cs.filter (fun c => c != '"')

/-- String token rule: regex match plus the quote-removing callback. The
token payload is the whole matched slice, opening and closing quotes
included, with every double quote character deleted. -/
def stringTokenMatch : List Char → Option (Token × List Char)
  | [] => none
  | c :: rest =>
      if c == '"' then
        match strScan (rest.length + 1) rest with
        | .closed body r =>
            some (.String (String.mk (removeQuotes (c :: body ++ ['"']))), r)
        | .stuck _ _ => none
      else none

/-- Identifier rule, regex [A-Z_a-z]+, with the keyword literals true,
false and nil taking priority over an identifier of the same length, as
logos gives literal regexes a higher priority than character classes. -/
def identTokenMatch (cs : List Char) : Option (Token × List Char) :=
  match cs.span isIdentChar with
  | ([], _) => none
  | (run, rest) =>
      if run = "true".data then some (.True, rest)
      else if run = "false".data then some (.False, rest)
      else if run = "nil".data then some (.Nil, rest)
      else some (.Ident (String.mk run), rest)

/-- Operator and delimiter rules; two-character operators are listed before
their one-character prefixes, implementing maximal munch. -/
def opTokenMatch : List Char → Option (Token × List Char)
  | [] => none
  | c :: rest =>
      if c == '+' then some (.Plus, rest)
      else if c == '-' then some (.Minus, rest)
      else if c == '*' then some (.Mult, rest)
      else if c == '/' then some (.Div, rest)
      else if c == '=' then
        match rest with
        | '=' :: r2 => some (.DEqual, r2)
        | _ => some (.Equal, rest)
      else if c == '!' then
        match rest with
        | '=' :: r2 => some (.NEqual, r2)
        | _ => some (.Bang, rest)
      else if c == '<' then
        match rest with
        | '=' :: r2 => some (.LEqual, r2)
        | _ => some (.Less, rest)
      else if c == '>' then
        match rest with
        | '=' :: r2 => some (.GEqual, r2)
        | _ => some (.Greater, rest)
      else if c == '(' then some (.LParen, rest)
      else if c == ')' then some (.RParen, rest)
      else none

/-- Longest token match at the current position; the class start sets are
disjoint, so sequential choice realizes the union automaton. -/
def tokenMatch (cs : List Char) : Option (Token × List Char) :=
  numberTokenMatch cs <|> stringTokenMatch cs <|> identTokenMatch cs <|>
    opTokenMatch cs

/-- Resume position after a failed match: logos emits the error over the
bytes the automaton consumed before getting stuck and resumes after them.
Every rule except the string rule reaches an accepting state on its first
character, so a failed match at any byte other than a double quote
consumed that byte alone; at a double quote the string automaton runs
until it gets stuck and the consumed prefix is kept. The closed arm is
unreachable here, since a closed scan means the string rule matched. -/
def failRest (c : Char) (cs : List Char) : List Char :=
  if c == '"' then
    match strScan (cs.length + 1) cs with
    | .stuck _ rest => rest
    | .closed _ rest => rest
  else cs

/-- One step of the lexer: skip whitespace, then emit the next token, or
the default error NonAsciiCharacter when no rule matches, resuming after
the characters the failed match attempt consumed; none at end of input. -/
def nextLex : List Char → Option (Except LexingError Token × List Char)
  | [] => none
  | c :: cs =>
      if isSkipChar c then nextLex cs
      else
        match tokenMatch (c :: cs) with
        | some (tk, rest) => some (.ok tk, rest)
        | none => some (.error .NonAsciiCharacter, failRest c cs)

/-- Fuelled iteration of nextLex; every emitted item consumes at least one
character, so fuel at least the input length is enough. -/
def tokenizeAux : ℕ → List Char → List (Except LexingError Token)
  | 0, _ => []
  | f + 1, cs =>
      match nextLex cs with
      | none => []
      | some (r, rest) => r :: tokenizeAux f rest

/-- The lexer entry point tokenize, from src/caxlang/src/lexer.rs: the full
sequence of token results for a source string. -/
def tokenize (code : String) : List (Except LexingError Token) :=
  tokenizeAux (code.data.length + 1) code.data

/-!
Parser model, from src/caxlang/src/parser.rs. The Rust parser is a
recursive-descent parser over Vec[Token] with a position index; malformed
input makes it abort the process through panic-family macros. Each panic
site is modelled as a distinct error value of `ParsePanic`, so the model
stays total while recording exactly which abort the source would perform.
The mutual recursion of the rule methods is tied with a fuel parameter
that decreases only where the source recurses into a strictly deeper
parse (the parenthesis rule, the unary prefix rule and the binary loops);
every such step first consumes a token, so fuel of one more than the
token count can never run out, and `fuelExhausted` is a pure model
artifact.
-/

mutual
/-- The literal type, from src/caxlang/src/parser.rs. -/
inductive Literal where
  | Number (val : F64)
  | String (s : Str)
  | True
  | False
  | Nil
  | Expr (e : Expr)

/-- The expression AST, from src/caxlang/src/parser.rs. -/
inductive Expr where
  | Literal (l : Literal)
  | Grouping (e : Expr)
  | Unary (op : Token) (right : Expr)
  | Binary (left : Expr) (op : Token) (right : Expr)
end

/-- Model of the process aborts reachable from the parser: each
constructor is one panic site in src/caxlang/src/parser.rs, except
fuelExhausted, which is the model artifact described above. -/
inductive ParsePanic where
  | peekNone
  | expectedExpression (tk : Token)
  | consumeFail
  | previousPanic
  | lexPanic (e : LexingError)
  | fuelExhausted
deriving DecidableEq, Repr

/-- Parser state: the token vector and the current position, the two
fields of struct Parser. -/
structure PState where
  tokens : List Token
  pos : ℕ
deriving DecidableEq, Repr

/-- Result of one parser rule: the parsed expression and the state after
it, or the modelled panic. -/
abbrev PResult := Except ParsePanic (Expr × PState)

namespace Parser

/-- Method peek: the token at the current position, if any. -/
def peek (st : PState) : Option Token := st.tokens.get? st.pos

/-- Method advance: moves the position forward when in range; the returned
token is ignored by every caller, so only the state is modelled. -/
def advanceSt (st : PState) : PState :=
  if st.pos < st.tokens.length then { st with pos := st.pos + 1 } else st

/-- Method check: whether the current token equals the given one. -/
def check (tk : Token) (st : PState) : Bool := peek st == some tk

/-- Method tmatch: advances past the current token when it equals one of
the given tokens. -/
def tmatch (tks : List Token) (st : PState) : Bool × PState :=
  if tks.any (fun tk => check tk st) then (true, advanceSt st) else (false, st)

/-- Method previous: the token one before the current position; the
unwrap panic is modelled by the none branch at call sites. -/
def previousTok (st : PState) : Option Token := st.tokens.get? (st.pos - 1)

/-- The while loop shared by the four binary rules: as long as the current
token is one of ops, consume it, parse the next operand with the
sub-rule, and extend the accumulated expression on the left. -/
def binLoop : ℕ → (PState → PResult) → List Token → Expr → PState → PResult
  | 0, _, _, _, _ => .error .fuelExhausted
  | f + 1, sub, ops, e, st =>
      match tmatch ops st with
      | (false, _) => .ok (e, st)
      | (true, st1) =>
          match previousTok st1 with
          | none => .error .previousPanic
          | some op =>
              match sub st1 with
              | .error p => .error p
              | .ok (r, st2) => binLoop f sub ops (.Binary e op r) st2

/-- Method primary: literals and parenthesized grouping. The first peek
is unwrapped in the source, so end of input panics (peekNone); an
unconsumable token reaches the panic call with message Expected
expression; a missing closing parenthesis reaches the consume panic. -/
def primary (expr : PState → PResult) (st : PState) : PResult :=
  match peek st with
  | none => .error .peekNone
  | some (.String s) => .ok (.Literal (.String s), advanceSt st)
  | some (.Number n) => .ok (.Literal (.Number n), advanceSt st)
  | some tk =>
      match tmatch [.True] st with
      | (true, st1) => .ok (.Literal .True, st1)
      | (false, _) =>
      match tmatch [.False] st with
      | (true, st1) => .ok (.Literal .False, st1)
      | (false, _) =>
      match tmatch [.Nil] st with
      | (true, st1) => .ok (.Literal .Nil, st1)
      | (false, _) =>
      match tmatch [.LParen] st with
      | (true, st1) =>
          match expr st1 with
          | .error p => .error p
          | .ok (e, st2) =>
              match tmatch [.RParen] st2 with
              | (true, st3) => .ok (.Grouping e, st3)
              | (false, _) => .error .consumeFail
      | (false, _) => .error (.expectedExpression tk)

/-- Method unary with its prefix self-recursion made explicit on fuel. -/
def unaryFuel : ℕ → (PState → PResult) → PState → PResult
  | 0, _, _ => .error .fuelExhausted
  | f + 1, expr, st =>
      match tmatch [.Bang, .Minus] st with
      | (true, st1) =>
          match previousTok st1 with
          | none => .error .previousPanic
          | some op =>
              match unaryFuel f expr st1 with
              | .error p => .error p
              | .ok (r, st2) => .ok (.Unary op r, st2)
      | (false, _) => primary expr st

/-- Method unary: each self-recursive step first consumes a prefix token,
so one more than the token count bounds the recursion depth. -/
def unary (expr : PState → PResult) (st : PState) : PResult :=
  unaryFuel (st.tokens.length + 1) expr st

/-- Method factor: unary, then the loop over the * and / operators. -/
def factor (expr : PState → PResult) (st : PState) : PResult :=
  match unary expr st with
  | .error p => .error p
  | .ok (e, st1) =>
      binLoop (st1.tokens.length + 1) (unary expr) [.Div, .Mult] e st1

/-- Method term: factor, then the loop over the - and + operators. -/
def term (expr : PState → PResult) (st : PState) : PResult :=
  match factor expr st with
  | .error p => .error p
  | .ok (e, st1) =>
      binLoop (st1.tokens.length + 1) (factor expr) [.Minus, .Plus] e st1

/-- Method comparison: term, then the loop over the ordering operators. -/
def comparison (expr : PState → PResult) (st : PState) : PResult :=
  match term expr st with
  | .error p => .error p
  | .ok (e, st1) =>
      binLoop (st1.tokens.length + 1) (term expr)
        [.Less, .Greater, .LEqual, .GEqual] e st1

/-- Method equality: comparison, then the loop over != and ==. -/
def equality (expr : PState → PResult) (st : PState) : PResult :=
  match comparison expr st with
  | .error p => .error p
  | .ok (e, st1) =>
      binLoop (st1.tokens.length + 1) (comparison expr) [.NEqual, .DEqual] e st1

/-- Method expression: ties the recursive-descent knot; every nested
expression parse sits behind a consumed opening parenthesis, so one more
than the token count bounds the nesting depth. -/
def expression : ℕ → PState → PResult
  | 0, _ => .error .fuelExhausted
  | f + 1, st => equality (expression f) st

/-- Method parse: pushes one parsed expression into the returned vector. -/
def parse (tokens : List Token) : Except ParsePanic (List Expr) :=
  match expression (tokens.length + 1) ⟨tokens, 0⟩ with
  | .error p => .error p
  | .ok (e, _) => .ok [e]

end Parser

/-- First lexing error of the token result list, if any. -/
def firstLexError : List (Except LexingError Token) → Option LexingError
  | [] => none
  | .error e :: _ => some e
  | .ok _ :: rest => firstLexError rest

/-- Successful tokens of the token result list. -/
def okTokens (rs : List (Except LexingError Token)) : List Token :=
  rs.filterMap (fun r =>
    match r with
    | .ok tk => some tk
    | .error _ => none)

/-- Function produce_ast, from src/caxlang/src/parser.rs: lexes the code
and parses the tokens. The source unwraps every lexer item, so the first
lexing error aborts the process, modelled by the lexPanic branch; when no
item is an error the unwrapped list is exactly the token list. -/
def produce_ast (code : String) : Except ParsePanic (List Expr) :=
  let rs := tokenize code
  match firstLexError rs with
  | some e => .error (.lexPanic e)
  | none => Parser.parse (okTokens rs)

deriving instance DecidableEq for Literal, Expr
deriving instance Repr for Literal, Expr

/-!
Interpreter model, from src/caxlang/src/interpreter.rs: a total recursive
evaluator from the AST to a runtime value or a typed error. The source
contains no panic site, so the model is the function itself.
-/

/-- Runtime booleans, from src/caxlang/src/interpreter.rs. -/
inductive RuntimeBool where
  | True
  | False
deriving DecidableEq, Repr

/-- Runtime values, from src/caxlang/src/interpreter.rs. -/
inductive RuntimeVal where
  | String (s : Str)
  | Number (n : F64)
  | Bool (b : RuntimeBool)
  | Nil
deriving DecidableEq, Repr

/-- Interpreter errors, from src/caxlang/src/interpreter.rs. -/
inductive InterpError where
  | LiteralIsExpr
  | InvalidUnaryOperator (op : Token) (v : RuntimeVal)
  | UnaryOperatorOnNonNumber (op : Token)
  | InvalidBinaryOperator (op : Token) (l r : RuntimeVal)
  | BinaryOperatorOnNonNumber (op : Token) (l r : RuntimeVal)
deriving DecidableEq, Repr

/-- Whether a runtime value is a Number. -/
def RuntimeVal.isNumber : RuntimeVal → Boolean
  | .Number _ => true
  | _ => false

/-- Method Interpreter::evaluate: post-order recursive evaluation. -/
def evaluate : Expr → Except InterpError RuntimeVal
  | .Literal l =>
      match l with
      | .String s => .ok (.String s)
      | .Number n => .ok (.Number n)
      | .Nil => .ok .Nil
      | .Expr _ => .error .LiteralIsExpr
      | .True => .ok (.Bool .True)
      | .False => .ok (.Bool .False)
  | .Unary op right =>
      match evaluate right with
      | .error e => .error e
      | .ok rv =>
          match op with
          | .Minus =>
              match rv with
              | .Number n => .ok (.Number (F64.neg n))
              | _ => .error (.UnaryOperatorOnNonNumber op)
          | _ => .error (.InvalidUnaryOperator op rv)
  | .Binary left op right =>
      match evaluate left with
      | .error e => .error e
      | .ok lv =>
          match evaluate right with
          | .error e => .error e
          | .ok rv =>
              match op with
              | .Plus =>
                  match lv, rv with
                  | .Number a, .Number b => .ok (.Number (F64.add a b))
                  | _, _ => .error (.BinaryOperatorOnNonNumber op lv rv)
              | .Minus =>
                  match lv, rv with
                  | .Number a, .Number b => .ok (.Number (F64.sub a b))
                  | _, _ => .error (.BinaryOperatorOnNonNumber op lv rv)
              | tk => .error (.InvalidBinaryOperator tk lv rv)
  | .Grouping g => evaluate g

/-- Method Interpreter::parse: evaluates each top-level expression. -/
def Interpreter.parse (ast : List Expr) : List (Except InterpError RuntimeVal) :=
  ast.map evaluate

/-- The pipeline of interp_code, from src/caxlang/src/interpreter.rs,
without the printing: produce the AST, then evaluate each expression.
The value kept is the full result list; interp_code itself stops at the
first interpreter error. -/
def interpSource (code : String) :
    Except ParsePanic (List (Except InterpError RuntimeVal)) :=
  match produce_ast code with
  | .error p => .error p
  | .ok ast => .ok (Interpreter.parse ast)

/-!
Bytecode model, from src/caxlang/src/vm.rs: three-byte chunks, the
disassembler, and the register machine. The disassembler is present in the
source; the execution loop is not (struct VM only stores the chunk list),
so execution is modelled from the specification.
-/

/-- Operation codes, from src/caxlang/src/vm.rs, with their discriminant
bytes. -/
inductive OpCode where
  | Add
  | Sub
deriving DecidableEq, Repr

/-- Discriminant byte of an opcode, the Into Byte conversion. -/
def OpCode.toByte : OpCode → ℕ
  | .Add => 0
  | .Sub => 1

/-- Register names, from src/caxlang/src/vm.rs, with discriminants 0-7. -/
inductive Register where
  | R0
  | R1
  | R2
  | R3
  | R4
  | R5
  | R6
  | R7
deriving DecidableEq, Repr

/-- Discriminant byte of a register, the Into Byte conversion. -/
def Register.toByte : Register → ℕ
  | .R0 => 0
  | .R1 => 1
  | .R2 => 2
  | .R3 => 3
  | .R4 => 4
  | .R5 => 5
  | .R6 => 6
  | .R7 => 7

/-- A chunk: one three-byte instruction. Bytes are modelled as naturals;
byte range does not matter to any claim. -/
structure Chunk where
  bytes : Fin 3 → ℕ

/-- Associated function Chunk::new. -/
def Chunk.new (b0 b1 b2 : ℕ) : Chunk := ⟨![b0, b1, b2]⟩

/-- The operand_match chain of Chunk::parse_operand: successive equality
tests of the byte against each register discriminant, with the empty
string as the unreachable fall-through return at the end of the method. -/
def regName (b : ℕ) : String :=
  if b = Register.R0.toByte then "R0"
  else if b = Register.R1.toByte then "R1"
  else if b = Register.R2.toByte then "R2"
  else if b = Register.R3.toByte then "R3"
  else if b = Register.R4.toByte then "R4"
  else if b = Register.R5.toByte then "R5"
  else if b = Register.R6.toByte then "R6"
  else if b = Register.R7.toByte then "R7"
  else ""

/-- Method Chunk::parse_operand: operand index 0 names byte 1, operand
index 1 names byte 2. -/
def Chunk.parse_operand (c : Chunk) (operand_index : Fin 2) : String :=
  regName (c.bytes operand_index.succ)

/-- The opcode_match chain of Chunk::dissasemble: successive equality
tests against each opcode discriminant, starting from the empty string. -/
def opcodeName (b : ℕ) : String :=
  if b = OpCode.Add.toByte then "Add"
  else if b = OpCode.Sub.toByte then "Sub"
  else ""

/-- Method Chunk::dissasemble: the format string with three fields
separated by single spaces. -/
def Chunk.dissasemble (c : Chunk) : String :=
  opcodeName (c.bytes 0) ++ " " ++ c.parse_operand 0 ++ " " ++ c.parse_operand 1

/-- Modelled from the spec: the execution errors of section 7, UnknownOpcode
and OperandOutOfRange; no execution code exists under src (struct VM in
src/caxlang/src/vm.rs only stores the chunk list). -/
inductive ExecError where
  | UnknownOpcode (b : ℕ)
  | OperandOutOfRange (b : ℕ)
deriving DecidableEq, Repr

/-- Modelled from the spec: the register file of exactly eight slots; Add
and Sub operate on numbers, so slots hold f64 values. -/
abbrev RegFile := Fin 8 → F64

/-- Modelled from the spec: decoding an opcode byte; bytes other than the
two discriminants are unrecognized. -/
def decodeOp (b : ℕ) : Option OpCode :=
  if b = OpCode.Add.toByte then some .Add
  else if b = OpCode.Sub.toByte then some .Sub
  else none

/-- Arithmetic meaning of an opcode. -/
def OpCode.apply : OpCode → F64 → F64 → F64
  | .Add => F64.add
  | .Sub => F64.sub

/-- Modelled from the spec: one fetch-decode-execute step of section 4.5.
Operand byte 0 is the destination register and left operand, operand byte
1 the right operand; an unrecognized opcode byte fails with UnknownOpcode
and an operand byte outside 0-7 fails with OperandOutOfRange. -/
def VM.step (c : Chunk) (regs : RegFile) : Except ExecError RegFile :=
  match decodeOp (c.bytes 0) with
  | none => .error (.UnknownOpcode (c.bytes 0))
  | some op =>
      if h1 : c.bytes 1 < 8 then
        if h2 : c.bytes 2 < 8 then
          .ok (Function.update regs ⟨c.bytes 1, h1⟩
            (op.apply (regs ⟨c.bytes 1, h1⟩) (regs ⟨c.bytes 2, h2⟩)))
        else .error (.OperandOutOfRange (c.bytes 2))
      else .error (.OperandOutOfRange (c.bytes 1))

/-- Modelled from the spec: the sequential execution loop of section 4.5,
one chunk after the other with no jumps, halting after the last chunk. -/
def VM.run : List Chunk → RegFile → Except ExecError RegFile
  | [], regs => .ok regs
  | c :: cs, regs =>
      match VM.step c regs with
      | .error e => .error e
      | .ok regs2 => VM.run cs regs2

/-!
Auxiliary definitions used by the theorem statements.
-/

/-- The two binary operators with interpreted semantics, + and -. -/
inductive BinOp where
  | plus
  | minus
deriving DecidableEq, Repr

/-- The token of a chain operator. -/
def BinOp.tok : BinOp → Token
  | .plus => .Plus
  | .minus => .Minus

/-- The f64 meaning of a chain operator. -/
def BinOp.apply : BinOp → F64 → F64 → F64
  | .plus => F64.add
  | .minus => F64.sub

/-- Token list of the operator and literal pairs of a flat chain. -/
def pairToks : List (BinOp × F64) → List Token
  | [] => []
  | p :: ps => p.1.tok :: .Number p.2 :: pairToks ps

/-- Token list of a flat chain built only from numeric literals and the
binary operators + and -. -/
def chainToks (n : F64) (ps : List (BinOp × F64)) : List Token :=
  .Number n :: pairToks ps

/-- The left-associative AST of a flat chain: each step nests the
accumulated expression as the left child of a new Binary node. -/
def chainExpr (acc : Expr) : List (BinOp × F64) → Expr
  | [] => acc
  | p :: ps => chainExpr (.Binary acc p.1.tok (.Literal (.Number p.2))) ps

/-- The standard left-to-right value of a flat chain: a left fold of the
operator meanings over the literals. -/
def chainVal (v : F64) : List (BinOp × F64) → F64
  | [] => v
  | p :: ps => chainVal (p.1.apply v p.2) ps

/-- Valid string literal interiors: concatenations of the three content
alternatives of the string regex (plain character, two-character escape,
six-character unicode escape). -/
inductive IsStrBody : List Char → Prop where
  | nil : IsStrBody []
  | plain (c : Char) (rest : List Char) :
      isStrPlainChar c = true → IsStrBody rest → IsStrBody (c :: rest)
  | esc (e : Char) (rest : List Char) :
      isEscChar e = true → IsStrBody rest → IsStrBody ('\\' :: e :: rest)
  | uesc (h1 h2 h3 h4 : Char) (rest : List Char) :
      isHexChar h1 = true → isHexChar h2 = true → isHexChar h3 = true →
      isHexChar h4 = true → IsStrBody rest →
      IsStrBody ('\\' :: 'u' :: h1 :: h2 :: h3 :: h4 :: rest)

/-- An expression reachable from base by repeatedly wrapping it as the
left child of a Binary node: the shape every left-associative loop
iteration preserves. -/
inductive LeftExt (base : Expr) : Expr → Prop where
  | refl : LeftExt base base
  | step (l : Expr) (op : Token) (r : Expr) :
      LeftExt base l → LeftExt base (.Binary l op r)

deriving instance DecidableEq for Except

/-!
Theorems. Concrete runs of the pipeline are settled by kernel evaluation
of the executable definitions; universally quantified statements are
proved structurally.
-/

/-- C2: for every binary + or - expression whose operands evaluate to
runtime values of which at least one is not a Number, interpretation
returns BinaryOperatorOnNonNumber carrying the operator and both
evaluated operand values. The model of Interpreter::evaluate is a total
function into Except, mirroring the absence of any panic site in the
evaluator, so no abort is reachable. -/
theorem binary_nonNumber_yields_typed_error
    (l r : Expr) (op : Token) (lv rv : RuntimeVal)
    (hl : evaluate l = .ok lv) (hr : evaluate r = .ok rv)
    (hop : op = .Plus ∨ op = .Minus)
    (hnn : lv.isNumber = false ∨ rv.isNumber = false) :
    evaluate (.Binary l op r) = .error (.BinaryOperatorOnNonNumber op lv rv) := by
  rcases hop with h | h <;> subst h <;>
    simp only [evaluate, hl, hr] <;>
    cases lv <;> cases rv <;> simp_all [RuntimeVal.isNumber]

/-- Witness for C2 at a concrete input: one plus a string fails with the
typed error carrying the operator and both values. -/
theorem binary_nonNumber_yields_typed_error_witness :
    evaluate (.Binary (.Literal (.Number (.finite 1))) .Plus
        (.Literal (.String "a"))) =
      .error (.BinaryOperatorOnNonNumber .Plus (.Number (.finite 1))
        (.String "a")) :=
  binary_nonNumber_yields_typed_error _ _ _ _ _ rfl rfl (Or.inl rfl)
    (Or.inr rfl)

set_option maxRecDepth 20000 in
/-- C3: the parser does not return a recoverable ParseError value on
malformed input; it reaches a panic site and aborts the process. The
model records which abort runs: a missing closing parenthesis reaches the
consume panic, a token that cannot start a primary expression reaches the
panic call with message Expected expression, and end of input reaches the
unwrap of peek. No ParseError type exists in the source. -/
theorem parser_panics_on_malformed_input :
    produce_ast "(1" = .error .consumeFail ∧
    produce_ast "+" = .error (.expectedExpression .Plus) ∧
    produce_ast "" = .error .peekNone := by
  refine ⟨?_, ?_, ?_⟩ <;> with_unfolding_all decide

set_option maxRecDepth 20000 in
/-- C5: unary minus on a Number operand yields its arithmetic negation,
negation is involutive over numbers, and the two quoted programs evaluate
to 2 and to minus 1. -/
theorem unary_minus_negates_and_is_involutive :
    (∀ (e : Expr) (n : F64), evaluate e = .ok (.Number n) →
        evaluate (.Unary .Minus e) = .ok (.Number (F64.neg n))) ∧
    (∀ n : F64,
        evaluate (.Unary .Minus (.Unary .Minus (.Literal (.Number n)))) =
          .ok (.Number n)) ∧
    interpSource "-(-2)" = .ok [.ok (.Number (.finite 2))] ∧
    interpSource "-1" = .ok [.ok (.Number (.finite (-1)))] := by
  refine ⟨?_, ?_, ?_, ?_⟩
  · intro e n h
    simp [evaluate, h]
  · intro n
    cases n <;> simp [evaluate, F64.neg, neg_neg]
  · with_unfolding_all decide
  · with_unfolding_all decide

/-- Witness for C5 at a concrete operand: negating the literal three. -/
theorem unary_minus_negates_and_is_involutive_witness :
    evaluate (.Unary .Minus (.Literal (.Number (.finite 3)))) =
      .ok (.Number (F64.neg (.finite 3))) :=
  unary_minus_negates_and_is_involutive.1 _ _ rfl

/-- A chunk equals the chunk rebuilt from its three bytes. -/
lemma chunk_eta (c : Chunk) :
    Chunk.new (c.bytes 0) (c.bytes 1) (c.bytes 2) = c := by
  obtain ⟨f⟩ := c
  simp only [Chunk.new]
  congr 1
  funext i
  fin_cases i <;> rfl

/-- C6: disassembling the chunk with bytes [Add, 1, 2] yields exactly the
string Add R1 R2; disassembly reads only the three raw bytes, and for an
opcode byte below 2 and operand bytes below 8 the rendering is the
capitalized mnemonic followed by the two R-prefixed register numbers,
space separated. -/
theorem dissasemble_renders_mnemonic_and_registers :
    (Chunk.new OpCode.Add.toByte 1 2).dissasemble = "Add R1 R2" ∧
    (∀ c : Chunk,
        c.dissasemble = (Chunk.new (c.bytes 0) (c.bytes 1) (c.bytes 2)).dissasemble) ∧
    ∀ b0 b1 b2 : ℕ, b0 < 2 → b1 < 8 → b2 < 8 →
      (Chunk.new b0 b1 b2).dissasemble =
        (if b0 = 0 then "Add" else "Sub") ++ " R" ++ toString b1 ++ " R" ++
          toString b2 := by
  refine ⟨by decide, ?_, ?_⟩
  · intro c
    rw [chunk_eta]
  · intro b0 b1 b2 h0 h1 h2
    interval_cases b0 <;> interval_cases b1 <;> interval_cases b2 <;> decide

/-- Witness for C6 at the chunk [Sub, 3, 4]. -/
theorem dissasemble_renders_mnemonic_and_registers_witness :
    (Chunk.new 1 3 4).dissasemble = "Sub R3 R4" := by
  have h := dissasemble_renders_mnemonic_and_registers.2.2 1 3 4
    (by decide) (by decide) (by decide)
  simpa using h

/-- C9: execution (modelled from the spec, as no loop exists in the
source) is the sequential composition of single-chunk steps and halts
after the last chunk: running an appended list runs the first part and
continues with the second from its final registers; a chunk whose opcode
byte is not a known discriminant fails with UnknownOpcode, and a chunk
with a recognized opcode whose operand byte lies outside 0 to 7 fails
with OperandOutOfRange. -/
theorem vm_sequential_execution_and_errors :
    (∀ (cs1 cs2 : List Chunk) (regs : RegFile),
        VM.run (cs1 ++ cs2) regs =
          match VM.run cs1 regs with
          | .error e => .error e
          | .ok regs2 => VM.run cs2 regs2) ∧
    (∀ (c : Chunk) (regs : RegFile), 2 ≤ c.bytes 0 →
        VM.step c regs = .error (.UnknownOpcode (c.bytes 0))) ∧
    (∀ (c : Chunk) (regs : RegFile), c.bytes 0 < 2 → 8 ≤ c.bytes 1 →
        VM.step c regs = .error (.OperandOutOfRange (c.bytes 1))) ∧
    (∀ (c : Chunk) (regs : RegFile), c.bytes 0 < 2 → c.bytes 1 < 8 →
        8 ≤ c.bytes 2 →
        VM.step c regs = .error (.OperandOutOfRange (c.bytes 2))) := by
  refine ⟨?_, ?_, ?_, ?_⟩
  · intro cs1
    induction cs1 with
    | nil => intro cs2 regs; simp [VM.run]
    | cons c cs ih =>
        intro cs2 regs
        simp only [List.cons_append, VM.run]
        cases VM.step c regs with
        | error e => rfl
        | ok regs2 => exact ih cs2 regs2
  · intro c regs h
    have h0 : ¬ c.bytes 0 = 0 := by omega
    have h1 : ¬ c.bytes 0 = 1 := by omega
    simp [VM.step, decodeOp, OpCode.toByte, h0, h1]
  · intro c regs h0 h1
    have hn : ¬ c.bytes 1 < 8 := by omega
    have h : c.bytes 0 = 0 ∨ c.bytes 0 = 1 := by omega
    rcases h with h | h <;>
      simp [VM.step, decodeOp, OpCode.toByte, h, hn]
  · intro c regs h0 h1 h2
    have hn : ¬ c.bytes 2 < 8 := by omega
    have h : c.bytes 0 = 0 ∨ c.bytes 0 = 1 := by omega
    rcases h with h | h <;>
      simp [VM.step, decodeOp, OpCode.toByte, h, h1, hn]

/-- Witness for C9 at a chunk with operand byte 9. -/
theorem vm_sequential_execution_and_errors_witness :
    VM.step (Chunk.new 0 9 0) (fun _ => .finite 0) =
      .error (.OperandOutOfRange 9) := by
  have h := vm_sequential_execution_and_errors.2.2.1 (Chunk.new 0 9 0)
    (fun _ => .finite 0) (by decide) (by decide)
  simpa using h

lemma char_le_iff_toNat {a b : Char} : a ≤ b ↔ a.toNat ≤ b.toNat := by
  rw [Char.le_def, UInt32.le_def, BitVec.le_def]
  exact Iff.rfl

lemma char_eq_iff_toNat {a b : Char} : a = b ↔ a.toNat = b.toNat := by
  constructor
  · intro h
    rw [h]
  · intro h
    exact Char.ext (UInt32.eq_of_toBitVec_eq (BitVec.eq_of_toNat_eq h))

lemma tokenMatch_none_of_gt127 (c : Char) (cs : List Char)
    (hgt : 127 < c.toNat) : tokenMatch (c :: cs) = none := by
  have hne : ∀ d : Char, d.toNat ≤ 127 → (c == d) = false := by
    intro d hd
    simp only [beq_eq_false_iff_ne, ne_eq, char_eq_iff_toNat]
    omega
  have hdig : isDigitChar c = false := by
    have h9 : ('9').toNat = 57 := rfl
    simp only [isDigitChar, Bool.and_eq_false_iff, decide_eq_false_iff_not,
      char_le_iff_toNat]
    right
    omega
  have hident : isIdentChar c = false := by
    have hZ : ('Z').toNat = 90 := rfl
    have hz : ('z').toNat = 122 := rfl
    have hu : ('_').toNat = 95 := rfl
    simp only [isIdentChar, Bool.or_eq_false_iff, Bool.and_eq_false_iff,
      decide_eq_false_iff_not, char_le_iff_toNat, beq_eq_false_iff_ne, ne_eq,
      char_eq_iff_toNat]
    omega
  have hnum : numberTokenMatch (c :: cs) = none := by
    simp [numberTokenMatch, intPartMatch, hne '0' (by decide), hdig]
  have hstr : stringTokenMatch (c :: cs) = none := by
    simp [stringTokenMatch, hne '"' (by decide)]
  have hid : identTokenMatch (c :: cs) = none := by
    simp [identTokenMatch, List.span_eq_take_drop, List.takeWhile_cons, hident]
  have hop : opTokenMatch (c :: cs) = none := by
    simp [opTokenMatch, hne '+' (by decide), hne '-' (by decide),
      hne '*' (by decide), hne '/' (by decide), hne '=' (by decide),
      hne '!' (by decide), hne '<' (by decide), hne '>' (by decide),
      hne '(' (by decide), hne ')' (by decide)]
  simp [tokenMatch, hnum, hstr, hid, hop, Option.orElse]

set_option maxRecDepth 20000 in
/-- C7 counterexample: the numeric literal 1e999 overflows the f64 range,
yet lexing it succeeds with the infinite value; no InvalidInteger error is
produced. The number callback is parse to f64 followed by unwrap, and f64
parsing of a regex-accepted slice never fails, so the InvalidInteger
conversion path is unreachable from the number rule. -/
theorem overflowing_literal_lexes_as_infinity :
    tokenize "1e999" = [.ok (.Number .inf)] ∧
    .error (.InvalidInteger "overflow") ∉ tokenize "1e999" := by
  have h : tokenize "1e999" = [.ok (.Number .inf)] := by
    with_unfolding_all decide
  refine ⟨h, ?_⟩
  rw [h]
  simp

/-- C7 as amended: every numeric literal is converted with f64 semantics
and lexing it always yields a Number token, never a lexing error; on
overflow the payload is the infinity, as the counterexample shows at
1e999. -/
theorem number_rule_never_fails (c : Char) (cs : List Char)
    (h : isDigitChar c = true) :
    ∃ v rest, nextLex (c :: cs) = some (.ok (.Number v), rest) := by
  have h0 : ('0').toNat = 48 := rfl
  have h9 : ('9').toNat = 57 := rfl
  have hcd : 48 ≤ c.toNat ∧ c.toNat ≤ 57 := by
    simp only [isDigitChar, Bool.and_eq_true, decide_eq_true_eq,
      char_le_iff_toNat] at h
    omega
  have hskip : isSkipChar c = false := by
    have hsp : (' ').toNat = 32 := rfl
    have htb : ('\t').toNat = 9 := rfl
    have hnl : ('\n').toNat = 10 := rfl
    simp only [isSkipChar, Bool.or_eq_false_iff, beq_eq_false_iff_ne, ne_eq,
      char_eq_iff_toNat]
    omega
  obtain ⟨v, rest, hmatch⟩ :
      ∃ v rest, numberTokenMatch (c :: cs) = some (.Number v, rest) := by
    cases hc : (c == '0') with
    | true =>
        exact ⟨F64.ofRat (sliceVal [c] (fracMatch cs).1
            (expMatch (fracMatch cs).2).1),
          (expMatch (fracMatch cs).2).2,
          by simp [numberTokenMatch, intPartMatch, hc]⟩
    | false =>
        exact ⟨F64.ofRat (sliceVal (c :: (cs.span isDigitChar).1)
            (fracMatch ((cs.span isDigitChar).2)).1
            (expMatch (fracMatch ((cs.span isDigitChar).2)).2).1),
          (expMatch (fracMatch ((cs.span isDigitChar).2)).2).2,
          by simp [numberTokenMatch, intPartMatch, hc, h]⟩
  exact ⟨v, rest, by simp [nextLex, hskip, tokenMatch, hmatch, Option.orElse]⟩

/-- Witness for the amended C7 at the digit seven. -/
theorem number_rule_never_fails_witness :
    ∃ v rest, nextLex ['7'] = some (.ok (.Number v), rest) :=
  number_rule_never_fails '7' [] (by decide)

lemma tokenMatch_quote_stuck {cs con rest : List Char}
    (h : strScan (cs.length + 1) cs = .stuck con rest) :
    tokenMatch ('"' :: cs) = none := by
  have hnum : numberTokenMatch ('"' :: cs) = none := by
    have d : (('"' : Char) == '0') = false := by decide
    have d2 : isDigitChar '"' = false := by decide
    simp [numberTokenMatch, intPartMatch, d, d2]
  have hstr : stringTokenMatch ('"' :: cs) = none := by
    have d0 : (('"' : Char) == '"') = true := by decide
    simp [stringTokenMatch, d0, h]
  have hid : identTokenMatch ('"' :: cs) = none := by
    have d : isIdentChar '"' = false := by decide
    simp [identTokenMatch, List.span_eq_take_drop, List.takeWhile_cons, d]
  have hop : opTokenMatch ('"' :: cs) = none := by
    have d1 : (('"' : Char) == '+') = false := by decide
    have d2 : (('"' : Char) == '-') = false := by decide
    have d3 : (('"' : Char) == '*') = false := by decide
    have d4 : (('"' : Char) == '/') = false := by decide
    have d5 : (('"' : Char) == '=') = false := by decide
    have d6 : (('"' : Char) == '!') = false := by decide
    have d7 : (('"' : Char) == '<') = false := by decide
    have d8 : (('"' : Char) == '>') = false := by decide
    have d9 : (('"' : Char) == '(') = false := by decide
    have d10 : (('"' : Char) == ')') = false := by decide
    simp [opTokenMatch, d1, d2, d3, d4, d5, d6, d7, d8, d9, d10]
  simp [tokenMatch, hnum, hstr, hid, hop, Option.orElse]

lemma nextLex_quote_stuck {cs con rest : List Char}
    (h : strScan (cs.length + 1) cs = .stuck con rest) :
    nextLex ('"' :: cs) = some (.error .NonAsciiCharacter, rest) := by
  have hskip : isSkipChar '"' = false := by decide
  have d0 : (('"' : Char) == '"') = true := by decide
  simp [nextLex, hskip, tokenMatch_quote_stuck h, failRest, d0, h]

set_option maxRecDepth 20000 in
/-- C8: a byte at which no token class matches (and which is not skipped
whitespace) lexes to the default error NonAsciiCharacter, with the resume
position of the program: a failing byte other than a double quote is
consumed alone, while at a double quote the string automaton keeps the
prefix it consumed before getting stuck and lexing resumes at the stuck
character; every byte above the ASCII range matches no class; and the
string literal with a raw control character between its quotes is
rejected over its consumed prefix rather than lexed as a String token,
its interior never re-lexed. -/
theorem unmatched_byte_yields_nonascii :
    (∀ (c : Char) (cs : List Char), isSkipChar c = false →
        (c == '"') = false → tokenMatch (c :: cs) = none →
        nextLex (c :: cs) = some (.error .NonAsciiCharacter, cs)) ∧
    (∀ (cs con rest : List Char),
        strScan (cs.length + 1) cs = .stuck con rest →
        nextLex ('"' :: cs) = some (.error .NonAsciiCharacter, rest)) ∧
    (∀ (c : Char) (cs : List Char), 127 < c.toNat →
        tokenMatch (c :: cs) = none) ∧
    tokenize "\"a\nb\"" =
      [.error .NonAsciiCharacter, .ok (.Ident "b"),
        .error .NonAsciiCharacter] ∧
    (∀ s : Str, .ok (.String s) ∉ tokenize "\"a\nb\"") := by
  have h4 : tokenize "\"a\nb\"" =
      [.error .NonAsciiCharacter, .ok (.Ident "b"),
        .error .NonAsciiCharacter] := by
    with_unfolding_all decide
  refine ⟨?_, ?_, tokenMatch_none_of_gt127, h4, ?_⟩
  · intro c cs h1 hq h2
    simp [nextLex, h1, h2, failRest, hq]
  · intro cs con rest h
    exact nextLex_quote_stuck h
  · intro s
    rw [h4]
    simp

/-- Witness for C8 at a concrete unmatched byte. -/
theorem unmatched_byte_yields_nonascii_witness :
    nextLex ['#'] = some (.error .NonAsciiCharacter, []) :=
  unmatched_byte_yields_nonascii.1 '#' [] (by decide) (by decide) (by decide)

lemma isStrPlainChar_facts {c : Char} (h : isStrPlainChar c = true) :
    (c == '"') = false ∧ (c == '\\') = false := by
  simp only [isStrPlainChar, Bool.and_eq_true, bne_iff_ne, ne_eq] at h
  exact ⟨beq_eq_false_iff_ne.mpr h.1.1, beq_eq_false_iff_ne.mpr h.1.2⟩

lemma strScan_append {body : List Char} (h : IsStrBody body) :
    ∀ (fuel : ℕ) (rest : List Char), body.length < fuel →
      strScan fuel (body ++ '"' :: rest) = .closed body rest := by
  induction h with
  | nil =>
      intro fuel rest hf
      cases fuel with
      | zero => omega
      | succ f => simp [strScan]
  | plain c r hc _ ih =>
      intro fuel rest hf
      cases fuel with
      | zero => omega
      | succ f =>
          obtain ⟨hq, hb⟩ := isStrPlainChar_facts hc
          have hr : r.length < f := by
            simp only [List.length_cons] at hf
            omega
          simp [strScan, hq, hb, hc, ih f rest hr]
  | esc e r he _ ih =>
      intro fuel rest hf
      cases fuel with
      | zero => omega
      | succ f =>
          have d1 : (('\\' : Char) == '"') = false := by decide
          have d2 : (('\\' : Char) == '\\') = true := by decide
          have hr : r.length < f := by
            simp only [List.length_cons] at hf
            omega
          simp [strScan, d1, d2, escSplit, he, ih f rest hr]
  | uesc h1 h2 h3 h4 r hh1 hh2 hh3 hh4 _ ih =>
      intro fuel rest hf
      cases fuel with
      | zero => omega
      | succ f =>
          have d1 : (('\\' : Char) == '"') = false := by decide
          have d2 : (('\\' : Char) == '\\') = true := by decide
          have d3 : isEscChar 'u' = false := by decide
          have d4 : (('u' : Char) == 'u') = true := by decide
          have hr : r.length < f := by
            simp only [List.length_cons] at hf
            omega
          have htw : (h1 :: h2 :: h3 :: h4 :: (r ++ '"' :: rest)).takeWhile
              isHexChar =
              h1 :: h2 :: h3 :: h4 :: ((r ++ '"' :: rest).takeWhile isHexChar) := by
            simp [List.takeWhile_cons, hh1, hh2, hh3, hh4]
          have hlen : 4 ≤ (h1 :: h2 :: h3 :: h4 ::
              ((r ++ '"' :: rest).takeWhile isHexChar)).length := by
            simp only [List.length_cons]
            omega
          have hesc : escSplit ('u' :: h1 :: h2 :: h3 :: h4 ::
              (r ++ '"' :: rest)) =
              .ok (['u', h1, h2, h3, h4], r ++ '"' :: rest) := by
            simp [escSplit, d3, d4, htw, hlen, List.take_succ_cons,
              List.drop_succ_cons]
          simp [strScan, d1, d2, hesc, ih f rest hr]

lemma tokenMatch_string {body : List Char} (h : IsStrBody body)
    (rest : List Char) :
    tokenMatch ('"' :: (body ++ '"' :: rest)) =
      some (.String (String.mk (removeQuotes ('"' :: body ++ ['"']))), rest) := by
  have hlen : body.length < (body ++ '"' :: rest).length + 1 := by
    simp [List.length_append]
    omega
  have hscan := strScan_append h ((body ++ '"' :: rest).length + 1) rest hlen
  simp only [List.length_append, List.length_cons] at hscan
  have hnum : numberTokenMatch ('"' :: (body ++ '"' :: rest)) = none := by
    have d : (('"' : Char) == '0') = false := by decide
    have d2 : isDigitChar '"' = false := by decide
    simp [numberTokenMatch, intPartMatch, d, d2]
  have hstr : stringTokenMatch ('"' :: (body ++ '"' :: rest)) =
      some (.String (String.mk (removeQuotes ('"' :: body ++ ['"']))), rest) := by
    have d0 : (('"' : Char) == '"') = true := by decide
    simp [stringTokenMatch, d0, hscan]
  simp [tokenMatch, hnum, hstr, Option.orElse]

set_option maxRecDepth 20000 in
/-- C10: for every lexed string literal the String token payload is the
matched slice, quotes included, with every double quote character removed;
the backslash of an escaped quote stays while its quote is removed, and
all other escape sequences stay as their raw source characters, as the two
concrete runs show (the source a backslash-quote b keeps the backslash and
drops the quote; the source a backslash-n b stays backslash n, undecoded). -/
theorem string_token_payload_removes_quotes :
    (∀ (body rest : List Char), IsStrBody body →
        nextLex ('"' :: (body ++ '"' :: rest)) =
          some (.ok (.String (String.mk (removeQuotes ('"' :: body ++ ['"'])))),
            rest)) ∧
    tokenize "\"a\\\"b\"" = [.ok (.String "a\\b")] ∧
    tokenize "\"a\\nb\"" = [.ok (.String "a\\nb")] := by
  refine ⟨?_, ?_, ?_⟩
  · intro body rest h
    have hskip : isSkipChar '"' = false := by decide
    simp [nextLex, hskip, tokenMatch_string h rest]
  · with_unfolding_all decide
  · with_unfolding_all decide

/-- Witness for C10 at the one-character body a. -/
theorem string_token_payload_removes_quotes_witness :
    nextLex ('"' :: (['a'] ++ '"' :: [])) =
      some (.ok (.String (String.mk (removeQuotes ('"' :: ['a'] ++ ['"'])))),
        []) :=
  string_token_payload_removes_quotes.1 ['a'] []
    (.plain 'a' [] (by decide) .nil)

lemma get?_of_drop_cons {α : Type} {T : List α} {pos : ℕ} {a : α} {l : List α}
    (h : T.drop pos = a :: l) : T.get? pos = some a ∧ T.drop (pos + 1) = l := by
  have hlt : pos < T.length := by
    by_contra hge
    rw [List.drop_eq_nil_of_le (by omega)] at h
    simp at h
  rw [List.drop_eq_getElem_cons hlt] at h
  injection h with h1 h2
  constructor
  · rw [List.get?_eq_getElem?, List.getElem?_eq_getElem hlt, h1]
  · exact h2

lemma tmatch_mem {tks : List Token} {T : List Token} {pos : ℕ} {tk : Token}
    (hpk : T.get? pos = some tk) (hmem : tk ∈ tks) :
    Parser.tmatch tks ⟨T, pos⟩ = (true, ⟨T, pos + 1⟩) := by
  have hlt : pos < T.length := by
    rcases List.get?_eq_some.mp hpk with ⟨h, _⟩
    exact h
  have hany : tks.any (fun t => Parser.check t ⟨T, pos⟩) = true := by
    refine List.any_eq_true.mpr ⟨tk, hmem, ?_⟩
    simp only [Parser.check, Parser.peek]
    rw [hpk]
    simp
  simp [Parser.tmatch, hany, Parser.advanceSt, hlt]

lemma tmatch_no {tks : List Token} {T : List Token} {pos : ℕ}
    (h : ∀ tk ∈ tks, T.get? pos ≠ some tk) :
    Parser.tmatch tks ⟨T, pos⟩ = (false, ⟨T, pos⟩) := by
  have hany : tks.any (fun t => Parser.check t ⟨T, pos⟩) = false := by
    rw [List.any_eq_false]
    intro tk hmem
    simp only [Parser.check, Parser.peek]
    cases hpk : T.get? pos with
    | none => simp
    | some tk2 =>
        have hne := h tk hmem
        rw [hpk] at hne
        simpa using hne
  simp [Parser.tmatch, hany]

lemma previousTok_succ (T : List Token) (pos : ℕ) :
    Parser.previousTok ⟨T, pos + 1⟩ = T.get? pos := by
  simp [Parser.previousTok]

lemma primary_number (ex : PState → PResult) {T : List Token} {pos : ℕ}
    {n : F64} (hpk : T.get? pos = some (.Number n)) :
    Parser.primary ex ⟨T, pos⟩ = .ok (.Literal (.Number n), ⟨T, pos + 1⟩) := by
  have hlt : pos < T.length := by
    rcases List.get?_eq_some.mp hpk with ⟨h, _⟩
    exact h
  have hp : Parser.peek ⟨T, pos⟩ = some (.Number n) := hpk
  unfold Parser.primary
  rw [hp]
  simp [Parser.advanceSt, hlt]

lemma unary_number (ex : PState → PResult) {T : List Token} {pos : ℕ}
    {n : F64} (hpk : T.get? pos = some (.Number n)) :
    Parser.unary ex ⟨T, pos⟩ = .ok (.Literal (.Number n), ⟨T, pos + 1⟩) := by
  have htm : Parser.tmatch [.Bang, .Minus] ⟨T, pos⟩ = (false, ⟨T, pos⟩) := by
    refine tmatch_no ?_
    intro tk hmem hc
    rw [hpk] at hc
    injection hc with hc
    subst hc
    simp at hmem
  rw [Parser.unary]
  show Parser.unaryFuel (T.length + 1) ex ⟨T, pos⟩ = _
  rw [Parser.unaryFuel]
  simp only [htm]
  exact primary_number ex hpk

lemma binLoop_stop {f : ℕ} {sub : PState → PResult} {ops : List Token}
    {e : Expr} {T : List Token} {pos : ℕ}
    (h : ∀ tk ∈ ops, T.get? pos ≠ some tk) :
    Parser.binLoop (f + 1) sub ops e ⟨T, pos⟩ = .ok (e, ⟨T, pos⟩) := by
  rw [Parser.binLoop]
  simp only [tmatch_no h]

lemma pairToks_get0_ne (ps : List (BinOp × F64)) (tk : Token)
    (h : tk = .Div ∨ tk = .Mult) : (pairToks ps).get? 0 ≠ some tk := by
  cases ps with
  | nil => simp [pairToks]
  | cons p ps =>
      rcases p with ⟨op, m⟩
      cases op <;> rcases h with rfl | rfl <;> simp [pairToks, BinOp.tok]

lemma factor_number (ex : PState → PResult) {T : List Token} {pos : ℕ}
    {n : F64} (hpk : T.get? pos = some (.Number n))
    (hnext : ∀ tk ∈ [Token.Div, Token.Mult], T.get? (pos + 1) ≠ some tk) :
    Parser.factor ex ⟨T, pos⟩ = .ok (.Literal (.Number n), ⟨T, pos + 1⟩) := by
  rw [Parser.factor, unary_number ex hpk]
  show Parser.binLoop (T.length + 1) (Parser.unary ex) [.Div, .Mult]
    (.Literal (.Number n)) ⟨T, pos + 1⟩ = _
  exact binLoop_stop hnext

lemma pairToks_length (ps : List (BinOp × F64)) :
    (pairToks ps).length = 2 * ps.length := by
  induction ps with
  | nil => simp [pairToks]
  | cons p ps ih =>
      simp [pairToks, ih]
      omega

lemma chain_next_ne (ps : List (BinOp × F64)) (pos2 : ℕ) {T : List Token}
    (hdrop : T.drop pos2 = pairToks ps) :
    ∀ tk ∈ [Token.Div, Token.Mult], T.get? pos2 ≠ some tk := by
  intro tk hmem hc
  cases ps with
  | nil =>
      rw [List.get?_eq_none.mpr
        (List.drop_eq_nil_iff.mp (by simpa [pairToks] using hdrop))] at hc
      exact Option.noConfusion hc
  | cons p ps =>
      rcases p with ⟨op, m⟩
      have h1 := (get?_of_drop_cons (by simpa [pairToks] using hdrop)).1
      rw [h1] at hc
      injection hc with hc
      cases op <;> simp only [BinOp.tok] at hc <;> subst hc <;> simp at hmem

lemma binLoop_chain (ex : PState → PResult) (ps : List (BinOp × F64)) :
    ∀ (f : ℕ) (acc : Expr) (T : List Token) (pos : ℕ),
      ps.length < f → pos ≤ T.length → T.drop pos = pairToks ps →
      Parser.binLoop f (Parser.factor ex) [.Minus, .Plus] acc ⟨T, pos⟩ =
        .ok (chainExpr acc ps, ⟨T, T.length⟩) := by
  induction ps with
  | nil =>
      intro f acc T pos hf hpos hdrop
      have hlen : T.length ≤ pos :=
        List.drop_eq_nil_iff.mp (by simpa [pairToks] using hdrop)
      have hpe : pos = T.length := by omega
      cases f with
      | zero => omega
      | succ f =>
          rw [binLoop_stop (fun tk _ => by
            rw [List.get?_eq_none.mpr hlen]
            exact fun hc => Option.noConfusion hc)]
          rw [hpe]
          rfl
  | cons p ps ih =>
      intro f acc T pos hf hpos hdrop
      rcases p with ⟨op, m⟩
      have h1 := get?_of_drop_cons (by simpa [pairToks] using hdrop)
      have h2 := get?_of_drop_cons h1.2
      cases f with
      | zero => omega
      | succ f =>
          have hmem : op.tok ∈ [Token.Minus, Token.Plus] := by
            cases op <;> simp [BinOp.tok]
          have hnext := chain_next_ne ps (pos + 1 + 1) (by
            rw [← h2.2])
          have hlt2 : pos + 1 + 1 ≤ T.length := by
            have hld : (T.drop (pos + 1 + 1)).length = T.length - (pos + 1 + 1) :=
              List.length_drop _ _
            rw [h2.2, pairToks_length] at hld
            have hg : T.get? pos = some op.tok := h1.1
            rcases List.get?_eq_some.mp hg with ⟨hp1, _⟩
            rcases List.get?_eq_some.mp h2.1 with ⟨hp2, _⟩
            omega
          rw [Parser.binLoop]
          simp only [tmatch_mem h1.1 hmem, previousTok_succ]
          rw [h1.1]
          simp only [factor_number ex h2.1 hnext]
          have hrec := ih f (.Binary acc op.tok (.Literal (.Number m))) T
            (pos + 1 + 1) (by simp at hf; omega) hlt2 h2.2
          rw [hrec]
          rfl

lemma term_chain (ex : PState → PResult) (n : F64) (ps : List (BinOp × F64)) :
    Parser.term ex ⟨chainToks n ps, 0⟩ =
      .ok (chainExpr (.Literal (.Number n)) ps,
        ⟨chainToks n ps, (chainToks n ps).length⟩) := by
  have hpk : (chainToks n ps).get? 0 = some (.Number n) := rfl
  have hdrop : (chainToks n ps).drop (0 + 1) = pairToks ps := rfl
  have hnext := chain_next_ne ps (0 + 1) hdrop
  rw [Parser.term, factor_number ex hpk hnext]
  show Parser.binLoop ((chainToks n ps).length + 1) (Parser.factor ex)
    [.Minus, .Plus] (.Literal (.Number n)) ⟨chainToks n ps, 0 + 1⟩ = _
  refine binLoop_chain ex ps _ _ _ _ ?_ ?_ hdrop
  · have := pairToks_length ps
    simp [chainToks]
    omega
  · simp [chainToks]

lemma binLoop_at_end {f : ℕ} {sub : PState → PResult} {ops : List Token}
    {e : Expr} {T : List Token} :
    Parser.binLoop (f + 1) sub ops e ⟨T, T.length⟩ = .ok (e, ⟨T, T.length⟩) :=
  binLoop_stop (fun tk _ => by
    rw [List.get?_eq_none.mpr (le_refl _)]
    exact fun hc => Option.noConfusion hc)

lemma parse_chain (n : F64) (ps : List (BinOp × F64)) :
    Parser.parse (chainToks n ps) =
      .ok [chainExpr (.Literal (.Number n)) ps] := by
  have hcomp : ∀ ex : PState → PResult,
      Parser.comparison ex ⟨chainToks n ps, 0⟩ =
        .ok (chainExpr (.Literal (.Number n)) ps,
          ⟨chainToks n ps, (chainToks n ps).length⟩) := by
    intro ex
    rw [Parser.comparison, term_chain ex n ps]
    exact binLoop_at_end
  have heq : ∀ ex : PState → PResult,
      Parser.equality ex ⟨chainToks n ps, 0⟩ =
        .ok (chainExpr (.Literal (.Number n)) ps,
          ⟨chainToks n ps, (chainToks n ps).length⟩) := by
    intro ex
    rw [Parser.equality, hcomp ex]
    exact binLoop_at_end
  unfold Parser.parse
  rw [Parser.expression, heq]

lemma evaluate_chainExpr (ps : List (BinOp × F64)) :
    ∀ (acc : Expr) (v : F64), evaluate acc = .ok (.Number v) →
      evaluate (chainExpr acc ps) = .ok (.Number (chainVal v ps)) := by
  induction ps with
  | nil =>
      intro acc v h
      simpa [chainExpr, chainVal] using h
  | cons p ps ih =>
      intro acc v h
      rcases p with ⟨op, m⟩
      have hstep : evaluate (.Binary acc op.tok (.Literal (.Number m))) =
          .ok (.Number (op.apply v m)) := by
        cases op <;> simp [evaluate, h, BinOp.tok, BinOp.apply]
      simpa [chainExpr, chainVal] using ih _ _ hstep

set_option maxRecDepth 20000 in
/-- C1: every flat chain of numeric literals under + and - parses to the
left-associative AST and interpretation yields the left fold of the
operator meanings over the literals, the standard left-to-right result;
the quoted programs 1 + 2 + 4 and 1 - 2 - 5 evaluate to 7.0 and -6.0
through the full pipeline. -/
theorem chains_parse_and_evaluate_left_to_right :
    (∀ (n : F64) (ps : List (BinOp × F64)),
        Parser.parse (chainToks n ps) =
          .ok [chainExpr (.Literal (.Number n)) ps]) ∧
    (∀ (n : F64) (ps : List (BinOp × F64)),
        evaluate (chainExpr (.Literal (.Number n)) ps) =
          .ok (.Number (chainVal n ps))) ∧
    interpSource "1 + 2 + 4" = .ok [.ok (.Number (.finite 7))] ∧
    interpSource "1 - 2 - 5" = .ok [.ok (.Number (.finite (-6)))] := by
  refine ⟨parse_chain, ?_, ?_, ?_⟩
  · intro n ps
    exact evaluate_chainExpr ps _ n rfl
  · with_unfolding_all decide
  · with_unfolding_all decide

lemma LeftExt_trans {a b c : Expr} (h1 : LeftExt a b) (h2 : LeftExt b c) :
    LeftExt a c := by
  induction h2 with
  | refl => exact h1
  | step l op r _ ih => exact .step l op r ih

lemma binLoop_leftExt : ∀ (f : ℕ) (sub : PState → PResult) (ops : List Token)
    (e : Expr) (st : PState) (r : Expr) (st2 : PState),
    Parser.binLoop f sub ops e st = .ok (r, st2) → LeftExt e r := by
  intro f
  induction f with
  | zero =>
      intro sub ops e st r st2 h
      rw [Parser.binLoop] at h
      exact Except.noConfusion h
  | succ f ih =>
      intro sub ops e st r st2 h
      rw [Parser.binLoop] at h
      split at h
      · injection h with h
        injection h with h1 h2
        subst h1
        exact .refl
      · split at h
        · exact Except.noConfusion h
        · split at h
          · exact Except.noConfusion h
          · rename_i st1 op sub2 r2 st3
            exact LeftExt_trans (.step _ _ _ .refl) (ih _ _ _ _ _ _ h)

set_option maxRecDepth 20000 in
/-- C4: parsing 1 - 2 - 5 yields exactly the left-nested tree
Binary(Binary(1,-,2),-,5) and no right-nested tree, and in general every
iteration of the shared binary-rule loop only extends the accumulated
expression on the left, so each binary rule is left-associative. -/
theorem term_parses_left_associatively :
    produce_ast "1 - 2 - 5" = .ok
      [.Binary (.Binary (.Literal (.Number (.finite 1))) .Minus
          (.Literal (.Number (.finite 2)))) .Minus
        (.Literal (.Number (.finite 5)))] ∧
    (∀ (x : Expr) (op1 : Token) (y : Expr) (op2 : Token) (z : Expr),
        produce_ast "1 - 2 - 5" ≠ .ok [.Binary x op1 (.Binary y op2 z)]) ∧
    (∀ (f : ℕ) (sub : PState → PResult) (ops : List Token) (e : Expr)
        (st : PState) (r : Expr) (st2 : PState),
        Parser.binLoop f sub ops e st = .ok (r, st2) → LeftExt e r) := by
  have h1 : produce_ast "1 - 2 - 5" = .ok
      [.Binary (.Binary (.Literal (.Number (.finite 1))) .Minus
          (.Literal (.Number (.finite 2)))) .Minus
        (.Literal (.Number (.finite 5)))] := by
    with_unfolding_all decide
  refine ⟨h1, ?_, binLoop_leftExt⟩
  intro x op1 y op2 z hc
  rw [h1] at hc
  simp at hc

/-- Witness for C4: the loop applied at a concrete run, a left extension. -/
theorem term_parses_left_associatively_witness :
    LeftExt (.Literal .Nil) (.Literal .Nil) :=
  term_parses_left_associatively.2.2 1 (fun st => .ok (.Literal .Nil, st)) []
    (.Literal .Nil) ⟨[], 0⟩ (.Literal .Nil) ⟨[], 0⟩ rfl
